import Mathlib

/-!
# Verification of the log-analyzer core (`logAnalyzer.ts`)

A shallow embedding of the two public operations of the repository,
`parseLogEntries` and `analyzeLogPatterns`, together with proofs of the
specified properties.

Modelling conventions:
* A JavaScript `Date`'s time value is modelled as `Option Int`:
  `some t` is a valid date with epoch-millisecond value `t`, and `none` is
  an *Invalid Date* (time value `NaN`).  Arithmetic and comparisons follow
  IEEE `NaN` semantics: any comparison involving `NaN` is false, and the
  sort comparator `a - b` evaluating to `NaN` is treated as `+0` (equal),
  as prescribed by the ECMAScript `SortCompare` operation.
* `Array.prototype.sort` (required stable since ES2019) is modelled as a
  stable insertion sort on the comparator `a.timestamp - b.timestamp`.
* The line regex
  `^(\d\x7b4\x7d-\d\x7b2\x7d-\d\x7b2\x7dT\d\x7b2\x7d:\d\x7b2\x7d:\d\x7b2\x7d.\d\x7b3\x7dZ)\s+(\S+)(?:\s+(.*))?$`
  is embedded directly: note the *unescaped* dot between the seconds and
  the milliseconds, which matches any character except a line terminator.
  The JS whitespace class `\s` and the line-terminator exclusions of `.`
  are reproduced.
* `new Date(str)` on the matched 24-character token: when the separator is
  a literal `.` the string has the ECMAScript Date Time String Format and
  is parsed by the ISO path (out-of-range calendar fields give an Invalid
  Date); when the separator is any other character the string is not in
  the ISO format and the engine's fallback parser rejects it, again giving
  an Invalid Date.
-/

/-- The JS whitespace class `\s` (also the character set removed by
`String.prototype.trim`): space, tab, LF, VT, FF, CR, NBSP, Ogham space,
the `U+2000`–`U+200A` range, LS, PS, NNBSP, MMSP, ideographic space, BOM. -/
def isJsWhitespace (c : Char) : Bool :=
  c = ' ' || c = '\t' || c = '\n' || c = '\x0b' || c = '\x0c' || c = '\r' ||
  c = Char.ofNat 0x00a0 || c = Char.ofNat 0x1680 ||
  (0x2000 ≤ c.toNat && c.toNat ≤ 0x200a) ||
  c = Char.ofNat 0x2028 || c = Char.ofNat 0x2029 || c = Char.ofNat 0x202f ||
  c = Char.ofNat 0x205f || c = Char.ofNat 0x3000 || c = Char.ofNat 0xfeff

/-- JS line terminators: the characters that the regex metacharacter `.`
does *not* match (LF, CR, LS, PS). -/
def isLineTerminator (c : Char) : Bool :=
  c = '\n' || c = '\r' || c = Char.ofNat 0x2028 || c = Char.ofNat 0x2029

/-- Model of `String.prototype.split('\n')`: split a character list at
every `'\n'`.  Splitting the empty string yields one empty field, as in JS. -/
def splitLines : List Char → List (List Char)
  | [] => [[]]
  | c :: cs =>
    if c = '\n' then [] :: splitLines cs
    else
      match splitLines cs with
      | [] => [[c]]
      | l :: ls => (c :: l) :: ls

/-- One parsed log entry: the record `{ timestamp: Date, event: string }`.
`timestamp = none` models an Invalid Date (`getTime()` is `NaN`). -/
structure LogEntry where
  timestamp : Option Int
  event : String
  deriving DecidableEq, Repr

/-- One detected pattern: the record
`{ events: string[], startTime: Date, endTime: Date }`. -/
structure Pattern where
  events : List String
  startTime : Option Int
  endTime : Option Int
  deriving DecidableEq, Repr

/-- The seven numeric fields captured from the 24-character timestamp
token, plus whether the character matched by the regex's unescaped dot was
a literal `'.'`. -/
structure TsFields where
  year : Nat
  month : Nat
  day : Nat
  hour : Nat
  minute : Nat
  second : Nat
  millis : Nat
  sepIsDot : Bool
  deriving DecidableEq, Repr

/-- Numeric value of a decimal digit character. -/
def digitVal (c : Char) : Nat := c.toNat - 48

/-- Match the timestamp group
`\d\x7b4\x7d-\d\x7b2\x7d-\d\x7b2\x7dT\d\x7b2\x7d:\d\x7b2\x7d:\d\x7b2\x7d.\d\x7b3\x7dZ`
at the start of a line.  The position between seconds and milliseconds is
the source's unescaped `.`, matching any character except a line
terminator.  Returns the captured fields and the rest of the line. -/
def matchTimestamp : List Char → Option (TsFields × List Char)
  | y1 :: y2 :: y3 :: y4 :: '-' :: o1 :: o2 :: '-' :: d1 :: d2 :: 'T' ::
    h1 :: h2 :: ':' :: i1 :: i2 :: ':' :: s1 :: s2 :: sep ::
    f1 :: f2 :: f3 :: 'Z' :: rest =>
    if y1.isDigit && y2.isDigit && y3.isDigit && y4.isDigit &&
       o1.isDigit && o2.isDigit && d1.isDigit && d2.isDigit &&
       h1.isDigit && h2.isDigit && i1.isDigit && i2.isDigit &&
       s1.isDigit && s2.isDigit && f1.isDigit && f2.isDigit && f3.isDigit &&
       !isLineTerminator sep then
      some ({ year := 1000 * digitVal y1 + 100 * digitVal y2 +
                      10 * digitVal y3 + digitVal y4
              month := 10 * digitVal o1 + digitVal o2
              day := 10 * digitVal d1 + digitVal d2
              hour := 10 * digitVal h1 + digitVal h2
              minute := 10 * digitVal i1 + digitVal i2
              second := 10 * digitVal s1 + digitVal s2
              millis := 100 * digitVal f1 + 10 * digitVal f2 + digitVal f3
              sepIsDot := sep = '.' }, rest)
    else none
  | _ => none

/-- Gregorian leap year. -/
def isLeapYear (y : Nat) : Bool :=
  (y % 4 = 0 && y % 100 ≠ 0) || y % 400 = 0

/-- Number of days in a month (1–12) of a Gregorian year. -/
def daysInMonth (y m : Nat) : Nat :=
  if m = 1 then 31 else if m = 2 then (if isLeapYear y then 29 else 28)
  else if m = 3 then 31 else if m = 4 then 30 else if m = 5 then 31
  else if m = 6 then 30 else if m = 7 then 31 else if m = 8 then 31
  else if m = 9 then 30 else if m = 10 then 31 else if m = 11 then 30
  else 31

/-- Days from 1970-01-01 to the given proleptic-Gregorian civil date
(Hinnant's `days_from_civil`). -/
def daysFromCivil (y m d : Nat) : Int :=
  let yy : Int := if m ≤ 2 then (y : Int) - 1 else (y : Int)
  let era : Int := (if 0 ≤ yy then yy else yy - 399) / 400
  let yoe : Int := yy - era * 400
  let mp : Nat := if 2 < m then m - 3 else m + 9
  let doy : Int := ((153 * mp + 2) / 5 + d - 1 : Nat)
  let doe : Int := yoe * 365 + yoe / 4 - yoe / 100 + doy
  era * 146097 + doe - 719468

/-- The time value `new Date(token).getTime()` for the matched
24-character token.  A non-`.` separator leaves the ISO format, and the
fallback parser yields an Invalid Date; on the ISO path, out-of-range
calendar or time-of-day fields yield an Invalid Date (hour 24 is allowed
at exactly `24:00:00.000`). -/
def jsDateOf (t : TsFields) : Option Int :=
  if t.sepIsDot &&
     1 ≤ t.month && t.month ≤ 12 &&
     1 ≤ t.day && t.day ≤ daysInMonth t.year t.month &&
     ((t.hour ≤ 23 && t.minute ≤ 59 && t.second ≤ 59) ||
      (t.hour = 24 && t.minute = 0 && t.second = 0 && t.millis = 0)) then
    some (daysFromCivil t.year t.month t.day * 86400000 +
          t.hour * 3600000 + t.minute * 60000 + t.second * 1000 + t.millis)
  else none

/-- Match one whole line against the source regex and build the entry that
`parseLogEntries` pushes for it.  After the timestamp group: `\s+`
(required whitespace), `(\S+)` (the event token), then the optional
`(?:\s+(.*))?` anchored by `$`.  Because `.` cannot match a line
terminator, a remainder containing one after the second whitespace run
makes the whole regex fail.  An empty third capture is falsy in
`details ? event + ' ' + details : event`, so the event is the bare token. -/
def parseLine (cs : List Char) : Option LogEntry :=
  match matchTimestamp cs with
  | none => none
  | some (ts, rest) =>
    let ws1 := rest.takeWhile isJsWhitespace
    let r1 := rest.dropWhile isJsWhitespace
    if ws1 = [] then none
    else
      let tok := r1.takeWhile (fun c => !isJsWhitespace c)
      let r2 := r1.dropWhile (fun c => !isJsWhitespace c)
      if tok = [] then none
      else
        match r2 with
        | [] => some ⟨jsDateOf ts, String.mk tok⟩
        | _ :: _ =>
          let detail := r2.dropWhile isJsWhitespace
          if detail.any isLineTerminator then none
          else if detail = [] then some ⟨jsDateOf ts, String.mk tok⟩
          else some ⟨jsDateOf ts, String.mk (tok ++ ' ' :: detail)⟩

/-- The public operation `parseLogEntries`: split on `'\n'`, drop lines
that are empty after `trim()`, and keep the entry of every line the regex
matches. -/
def parseLogEntries (logContent : String) : List LogEntry :=
  ((splitLines logContent.data).filter
      (fun l => l.any (fun c => !isJsWhitespace c))).filterMap parseLine

/-- The sort comparator `(a, b) => a.timestamp.getTime() - b.timestamp.getTime()`
reports `a` not-after `b`.  When either time value is `NaN` the comparator
returns `NaN`, which ECMAScript's `SortCompare` treats as `+0`. -/
def jsCmpLe (a b : LogEntry) : Bool :=
  match a.timestamp, b.timestamp with
  | some x, some y => x ≤ y
  | _, _ => true

/-- Insert into a sorted list, before the first element the comparator
does not place strictly earlier (the stable position). -/
def insertSorted (e : LogEntry) : List LogEntry → List LogEntry
  | [] => [e]
  | x :: xs => if jsCmpLe e x then e :: x :: xs else x :: insertSorted e xs

/-- Model of
`logEntries.sort((a, b) => a.timestamp.getTime() - b.timestamp.getTime())`:
a stable sort on the comparator. -/
def sortByTime : List LogEntry → List LogEntry
  | [] => []
  | x :: xs => insertSorted x (sortByTime xs)

/-- The inner-loop test `timeDiff <= timeWindowMs` where
`timeDiff = tj.getTime() - t0.getTime()`: false whenever either time value
is `NaN`. -/
def jsWithin (tj t0 : Option Int) (w : Int) : Bool :=
  match tj, t0 with
  | some a, some b => a - b ≤ w
  | _, _ => false

/-- The inner loop of `analyzeLogPatterns`: keep pushing successive
entries while their offset from the anchor's time is within the window,
and break at the first entry that exceeds it. -/
def takeRun (t0 : Option Int) (w : Int) : List LogEntry → List LogEntry
  | [] => []
  | e :: es => if jsWithin e.timestamp t0 w then e :: takeRun t0 w es else []

/-- The entry `currentSequence[currentSequence.length - 1]` of the run
`e :: tail`. -/
def lastEntry (e : LogEntry) : List LogEntry → LogEntry
  | [] => e
  | x :: xs => lastEntry x xs

/-- The pattern pushed for a qualifying run `e :: tail`. -/
def mkWindow (e : LogEntry) (tail : List LogEntry) : Pattern :=
  { events := (e :: tail).map LogEntry.event
    startTime := e.timestamp
    endTime := (lastEntry e tail).timestamp }

/-- The outer loop of `analyzeLogPatterns` over the sorted entries: one
candidate run per anchor, emitted when `currentSequence.length >=
minSequenceLength`. -/
def windowsAux (w m : Int) : List LogEntry → List Pattern
  | [] => []
  | e :: es =>
    if m ≤ ((e :: takeRun e.timestamp w es).length : Int) then
      mkWindow e (takeRun e.timestamp w es) :: windowsAux w m es
    else windowsAux w m es

/-- The public operation
`analyzeLogPatterns(logContent, timeWindowMs, minSequenceLength)`. -/
def analyzeLogPatterns (logContent : String) (timeWindowMs : Int)
    (minSequenceLength : Int) : List Pattern :=
  windowsAux timeWindowMs minSequenceLength
    (sortByTime (parseLogEntries logContent))

/-! ## Spec-side restatement of the detection algorithm (for C1)

Written from the spec's words: sort, then for each *index* `i` of the
sorted sequence take record `i` followed by the longest prefix of the
following records whose timestamps are within `timeWindowMs` of record
`i`'s, and emit a window for `i` exactly when that run is long enough. -/

/-- The run anchored at index `i` of the sorted sequence: record `i`
followed by consecutive records `j = i+1, i+2, …` for as long as
`timestamp[j] - timestamp[i] <= timeWindowMs`. -/
def specRun (l : List LogEntry) (w : Int) (i : Nat) : List LogEntry :=
  match l.drop i with
  | [] => []
  | a :: rest => a :: rest.takeWhile (fun e => jsWithin e.timestamp a.timestamp w)

/-- The window emitted for anchor index `i`, if any: emitted iff the run's
length (anchor inclusive) is at least `m`, with the run's event strings in
run order, `startTime` the anchor's timestamp and `endTime` the run's last
record's timestamp. -/
def specWindowAt (l : List LogEntry) (w m : Int) (i : Nat) : Option Pattern :=
  match specRun l w i with
  | [] => none
  | a :: rest =>
    if m ≤ ((a :: rest).length : Int) then
      some { events := (a :: rest).map LogEntry.event
             startTime := a.timestamp
             endTime := ((a :: rest).getLast (List.cons_ne_nil a rest)).timestamp }
    else none

/-- The claim's reading of the whole algorithm: windows for anchor indices
`0, 1, 2, …` of the sorted sequence, in anchor-index order. -/
def analyzeLogPatternsSpec (logContent : String) (w m : Int) : List Pattern :=
  let sorted := sortByTime (parseLogEntries logContent)
  (List.range sorted.length).filterMap (specWindowAt sorted w m)

/-- The six-line sample log of the test suite. -/
def sampleLog : String :=
  "2023-04-15T14:32:15.123Z LOGIN User logged in\n" ++
  "2023-04-15T14:32:17.456Z NAVIGATE User navigated to dashboard\n" ++
  "2023-04-15T14:32:19.789Z CLICK User clicked on settings\n" ++
  "2023-04-15T14:32:45.123Z LOGOUT User logged out\n" ++
  "2023-04-15T14:35:15.123Z LOGIN Another user logged in\n" ++
  "2023-04-15T14:35:18.456Z ERROR Failed to load dashboard"

/-! ## Basic lemmas about the run builder and the sort -/

/-- The inner loop is a `takeWhile` on the suffix after the anchor. -/
theorem takeRun_eq_takeWhile (t0 : Option Int) (w : Int) :
    ∀ l : List LogEntry,
      takeRun t0 w l = l.takeWhile (fun e => jsWithin e.timestamp t0 w) := by
  intro l
  induction l with
  | nil => rfl
  | cons e es ih =>
    rw [takeRun, List.takeWhile_cons]
    cases h : jsWithin e.timestamp t0 w with
    | false => simp [h]
    | true => simp [h, ih]

/-- An anchor with an invalid timestamp never extends its run. -/
theorem takeRun_none (w : Int) : ∀ l : List LogEntry, takeRun none w l = [] := by
  intro l
  cases l with
  | nil => rfl
  | cons e es => rw [takeRun]; simp [jsWithin]

/-- Every entry the inner loop kept passed the window test. -/
theorem takeRun_mem_within (t0 : Option Int) (w : Int) :
    ∀ l : List LogEntry, ∀ x ∈ takeRun t0 w l,
      jsWithin x.timestamp t0 w = true := by
  intro l
  induction l with
  | nil => intro x hx; simp [takeRun] at hx
  | cons e es ih =>
    intro x hx
    rw [takeRun] at hx
    cases h : jsWithin e.timestamp t0 w with
    | false => rw [h] at hx; simp at hx
    | true =>
      rw [h] at hx
      rcases List.mem_cons.mp (by simpa using hx) with hxe | hxr
      · rw [hxe]; exact h
      · exact ih x hxr

/-- The explicit last-of-run accessor agrees with `List.getLast`. -/
theorem lastEntry_eq_getLast :
    ∀ (e : LogEntry) (l : List LogEntry),
      lastEntry e l = (e :: l).getLast (List.cons_ne_nil e l)
  | _, [] => rfl
  | e, x :: xs => by
    rw [lastEntry, lastEntry_eq_getLast x xs]
    exact (List.getLast_cons (List.cons_ne_nil x xs)).symm

/-- The last entry of the run is its anchor or one of the kept entries. -/
theorem lastEntry_mem :
    ∀ (e : LogEntry) (l : List LogEntry), lastEntry e l = e ∨ lastEntry e l ∈ l
  | _, [] => Or.inl rfl
  | e, x :: xs => by
    rw [lastEntry]
    rcases lastEntry_mem x xs with h | h
    · exact Or.inr (by rw [h]; exact List.mem_cons_self x xs)
    · exact Or.inr (List.mem_cons_of_mem x h)

/-- Inserting at the stable position is a permutation. -/
theorem insertSorted_perm (e : LogEntry) :
    ∀ l : List LogEntry, List.Perm (insertSorted e l) (e :: l) := by
  intro l
  induction l with
  | nil => rfl
  | cons x xs ih =>
    rw [insertSorted]
    cases h : jsCmpLe e x with
    | true =>
      rw [if_pos rfl]
    | false =>
      rw [if_neg (by simp)]
      exact (ih.cons x).trans (List.Perm.swap e x xs)

/-- The stable sort permutes the entry list. -/
theorem sortByTime_perm : ∀ l : List LogEntry, List.Perm (sortByTime l) l := by
  intro l
  induction l with
  | nil => rfl
  | cons x xs ih => exact (insertSorted_perm x (sortByTime xs)).trans (ih.cons x)

/-- Sorting preserves the number of entries. -/
theorem sortByTime_length (l : List LogEntry) :
    (sortByTime l).length = l.length :=
  (sortByTime_perm l).length_eq

/-! ## The per-anchor loop equals the spec's indexed description (C1) -/

/-- Shifting the anchor index past the head of the sorted sequence. -/
theorem specRun_succ (e : LogEntry) (l : List LogEntry) (w : Int) (i : Nat) :
    specRun (e :: l) w (i + 1) = specRun l w i := by
  unfold specRun
  rw [List.drop_succ_cons]

/-- The run at anchor index `0` is the head plus the inner loop's walk. -/
theorem specRun_zero (e : LogEntry) (es : List LogEntry) (w : Int) :
    specRun (e :: es) w 0 = e :: takeRun e.timestamp w es := by
  unfold specRun
  rw [List.drop_zero, takeRun_eq_takeWhile]

/-- Shifting the anchor index past the head for the emitted window. -/
theorem specWindowAt_succ (e : LogEntry) (l : List LogEntry) (w m : Int) (i : Nat) :
    specWindowAt (e :: l) w m (i + 1) = specWindowAt l w m i := by
  unfold specWindowAt
  rw [specRun_succ]

/-- The window emitted at anchor index `0` is the source loop's window. -/
theorem specWindowAt_zero (e : LogEntry) (es : List LogEntry) (w m : Int) :
    specWindowAt (e :: es) w m 0 =
      if m ≤ ((e :: takeRun e.timestamp w es).length : Int) then
        some (mkWindow e (takeRun e.timestamp w es))
      else none := by
  unfold specWindowAt
  rw [specRun_zero]
  simp only [mkWindow, lastEntry_eq_getLast]

/-- The outer loop emits exactly the spec's per-anchor-index windows. -/
theorem windowsAux_eq_spec (w m : Int) :
    ∀ l : List LogEntry,
      windowsAux w m l = (List.range l.length).filterMap (specWindowAt l w m) := by
  intro l
  induction l with
  | nil => rfl
  | cons e es ih =>
    rw [List.length_cons, List.range_succ_eq_map, List.filterMap_cons,
        List.filterMap_map]
    have hcomp :
        (specWindowAt (e :: es) w m ∘ Nat.succ) = specWindowAt es w m := by
      funext i
      exact specWindowAt_succ e es w m i
    rw [hcomp, ← ih, windowsAux, specWindowAt_zero]
    by_cases hg : m ≤ ((e :: takeRun e.timestamp w es).length : Int)
    · rw [if_pos hg, if_pos hg]
    · rw [if_neg hg, if_neg hg]

/-! ## Soundness of emitted windows (C2) and shape lemmas (C4, C9, C10) -/

/-- Every entry kept by the inner loop is an entry of the walked list. -/
theorem takeRun_subset (t0 : Option Int) (w : Int) :
    ∀ l : List LogEntry, ∀ x ∈ takeRun t0 w l, x ∈ l := by
  intro l
  induction l with
  | nil => intro x hx; rw [takeRun] at hx; exact absurd hx (List.not_mem_nil x)
  | cons e es ih =>
    intro x hx
    rw [takeRun] at hx
    cases h : jsWithin e.timestamp t0 w with
    | false => rw [h] at hx; simp at hx
    | true =>
      rw [h] at hx
      rcases List.mem_cons.mp (by simpa using hx) with hxe | hxr
      · exact hxe ▸ List.mem_cons_self x es
      · exact List.mem_cons_of_mem e (ih x hxr)

/-- For a nonnegative window, every emitted window meets the minimum
length, and whenever both endpoint time values are valid their difference
is bounded by the window. -/
theorem windowsAux_sound (w m : Int) (hw : 0 ≤ w) :
    ∀ l : List LogEntry, ∀ p ∈ windowsAux w m l,
      m ≤ (p.events.length : Int) ∧
      ∀ te ts, p.endTime = some te → p.startTime = some ts → te - ts ≤ w := by
  intro l
  induction l with
  | nil => intro p hp; rw [windowsAux] at hp; exact absurd hp (List.not_mem_nil p)
  | cons e es ih =>
    intro p hp
    rw [windowsAux] at hp
    by_cases hg : m ≤ ((e :: takeRun e.timestamp w es).length : Int)
    · rw [if_pos hg] at hp
      rcases List.mem_cons.mp hp with hpe | hpr
      · subst hpe
        refine ⟨by simpa [mkWindow] using hg, ?_⟩
        intro te ts hte hts
        simp only [mkWindow] at hte hts
        rcases lastEntry_mem e (takeRun e.timestamp w es) with hl | hl
        · rw [hl] at hte
          rw [hte] at hts
          have h2 : te = ts := Option.some.inj hts
          omega
        · have hin := takeRun_mem_within e.timestamp w es _ hl
          rw [hte, hts] at hin
          simpa [jsWithin] using hin
      · exact ih p hpr
    · rw [if_neg hg] at hp
      exact ih p hp

/-- At most one window is emitted per anchor. -/
theorem windowsAux_length_le (w m : Int) :
    ∀ l : List LogEntry, (windowsAux w m l).length ≤ l.length := by
  intro l
  induction l with
  | nil => exact Nat.le_refl 0
  | cons e es ih =>
    rw [windowsAux]
    by_cases hg : m ≤ ((e :: takeRun e.timestamp w es).length : Int)
    · rw [if_pos hg, List.length_cons, List.length_cons]
      exact Nat.succ_le_succ ih
    · rw [if_neg hg, List.length_cons]
      exact Nat.le_succ_of_le ih

/-- When the minimum length is at most one, every anchor qualifies and
exactly one window per entry is emitted. -/
theorem windowsAux_length_of_le_one (w m : Int) (hm : m ≤ 1) :
    ∀ l : List LogEntry, (windowsAux w m l).length = l.length := by
  intro l
  induction l with
  | nil => rfl
  | cons e es ih =>
    rw [windowsAux]
    have hg : m ≤ ((e :: takeRun e.timestamp w es).length : Int) := by
      rw [List.length_cons]
      push_cast
      omega
    rw [if_pos hg, List.length_cons, List.length_cons, ih]

/-- Every emitted window has a nonempty event list, and a singleton window
starts and ends at the same timestamp. -/
theorem windowsAux_wf (w m : Int) :
    ∀ l : List LogEntry, ∀ p ∈ windowsAux w m l,
      p.events ≠ [] ∧ (p.events.length = 1 → p.startTime = p.endTime) := by
  intro l
  induction l with
  | nil => intro p hp; rw [windowsAux] at hp; exact absurd hp (List.not_mem_nil p)
  | cons e es ih =>
    intro p hp
    rw [windowsAux] at hp
    by_cases hg : m ≤ ((e :: takeRun e.timestamp w es).length : Int)
    · rw [if_pos hg] at hp
      rcases List.mem_cons.mp hp with hpe | hpr
      · subst hpe
        refine ⟨by simp [mkWindow], ?_⟩
        intro hlen
        simp only [mkWindow, List.length_map, List.length_cons] at hlen
        have htr : takeRun e.timestamp w es = [] :=
          List.length_eq_zero.mp (by omega)
        simp [mkWindow, htr, lastEntry]
      · exact ih p hpr
    · rw [if_neg hg] at hp
      exact ih p hp

/-! ## Local order produced by the stable sort, and the zero-window case (C6) -/

/-- The order that the comparator enforces between *adjacent* entries of
the sorted array: whenever both time values are valid, they are
nondecreasing.  (Entries with an invalid time value compare as equal to
everything, so nothing is required of them.) -/
def adjLe (a b : LogEntry) : Prop :=
  ∀ x y, a.timestamp = some x → b.timestamp = some y → x ≤ y

/-- A comparator result `<= 0` gives the adjacent order. -/
theorem adjLe_of_cmpLe {a b : LogEntry} (h : jsCmpLe a b = true) : adjLe a b := by
  intro x y hx hy
  unfold jsCmpLe at h
  rw [hx, hy] at h
  simpa using h

/-- A comparator result `> 0` means both time values are valid and out of
order. -/
theorem cmpLe_false {a b : LogEntry} (h : jsCmpLe a b = false) :
    ∃ x y, a.timestamp = some x ∧ b.timestamp = some y ∧ y < x := by
  unfold jsCmpLe at h
  cases hx : a.timestamp with
  | none => rw [hx] at h; simp at h
  | some x =>
    cases hy : b.timestamp with
    | none => rw [hx, hy] at h; simp at h
    | some y =>
      rw [hx, hy] at h
      exact ⟨x, y, rfl, rfl, not_le.mp (by simpa using h)⟩

/-- Inserting at the stable position preserves the adjacent order. -/
theorem chain'_insertSorted (e : LogEntry) :
    ∀ l : List LogEntry, List.Chain' adjLe l →
      List.Chain' adjLe (insertSorted e l) := by
  intro l
  induction l with
  | nil => intro _; simp [insertSorted]
  | cons x xs ih =>
    intro h
    rw [insertSorted]
    cases hc : jsCmpLe e x with
    | true =>
      rw [if_pos rfl]
      exact h.cons (adjLe_of_cmpLe hc)
    | false =>
      rw [if_neg (by simp)]
      have hxe : adjLe x e := by
        rcases cmpLe_false hc with ⟨p, q, hp, hq, hlt⟩
        intro u v hu hv
        rw [hu] at hq
        rw [hv] at hp
        have h1 : u = q := Option.some.inj hq
        have h2 : v = p := Option.some.inj hp
        omega
      refine List.chain'_cons'.mpr ⟨?_, ih h.tail⟩
      intro b hb
      cases xs with
      | nil =>
        rw [insertSorted] at hb
        have hbe : e = b := by simpa using hb
        exact hbe ▸ hxe
      | cons y ys =>
        rw [insertSorted] at hb
        cases hcy : jsCmpLe e y with
        | true =>
          rw [if_pos hcy] at hb
          have hbe : e = b := by simpa using hb
          exact hbe ▸ hxe
        | false =>
          rw [if_neg (by simp [hcy])] at hb
          have hby : y = b := by simpa using hb
          exact hby ▸ (List.chain'_cons.mp h).1
  
/-- The stable sort produces adjacently ordered output. -/
theorem chain'_sortByTime : ∀ l : List LogEntry, List.Chain' adjLe (sortByTime l) := by
  intro l
  induction l with
  | nil => exact List.chain'_nil
  | cons x xs ih =>
    rw [sortByTime]
    exact chain'_insertSorted x (sortByTime xs) ih

/-- With a zero window, every entry the inner loop keeps shares the
anchor's (valid) time value. -/
theorem takeRun_zero_ts (t : Int) :
    ∀ (a : LogEntry) (es : List LogEntry), a.timestamp = some t →
      List.Chain' adjLe (a :: es) →
      ∀ x ∈ takeRun (some t) 0 es, x.timestamp = some t := by
  intro a es
  induction es generalizing a with
  | nil => intro _ _ x hx; rw [takeRun] at hx; exact absurd hx (List.not_mem_nil x)
  | cons y ys ih =>
    intro ha hch x hx
    rw [takeRun] at hx
    cases hw : jsWithin y.timestamp (some t) 0 with
    | false => rw [hw] at hx; simp at hx
    | true =>
      rw [hw] at hx
      have hy : y.timestamp = some t := by
        cases hyt : y.timestamp with
        | none => rw [hyt] at hw; simp [jsWithin] at hw
        | some ty =>
          rw [hyt] at hw
          have hle : ty - t ≤ 0 := by simpa [jsWithin] using hw
          have hge : t ≤ ty := (List.chain'_cons.mp hch).1 t ty ha hyt
          have hty : ty = t := by omega
          rw [hty]
      rcases List.mem_cons.mp (by simpa using hx) with hxy | hxr
      · rw [hxy]; exact hy
      · exact ih y hy (List.chain'_cons.mp hch).2 x hxr

/-- With a zero window, the run never leaves the anchor's time value. -/
theorem takeRun_zero_of_chain' {e : LogEntry} {es : List LogEntry}
    (hch : List.Chain' adjLe (e :: es)) :
    ∀ x ∈ takeRun e.timestamp 0 es, x.timestamp = e.timestamp := by
  intro x hx
  cases ht : e.timestamp with
  | none =>
    rw [ht, takeRun_none] at hx
    exact absurd hx (List.not_mem_nil x)
  | some t =>
    rw [ht] at hx
    exact takeRun_zero_ts t e es ht hch x hx

/-- With a zero window, every emitted window starts and ends at the same
time value. -/
theorem windowsAux_zero_start_eq_end (m : Int) :
    ∀ l : List LogEntry, List.Chain' adjLe l →
      ∀ p ∈ windowsAux 0 m l, p.startTime = p.endTime := by
  intro l
  induction l with
  | nil => intro _ p hp; rw [windowsAux] at hp; exact absurd hp (List.not_mem_nil p)
  | cons e es ih =>
    intro hch p hp
    rw [windowsAux] at hp
    by_cases hg : m ≤ ((e :: takeRun e.timestamp 0 es).length : Int)
    · rw [if_pos hg] at hp
      rcases List.mem_cons.mp hp with hpe | hpr
      · subst hpe
        simp only [mkWindow]
        rcases lastEntry_mem e (takeRun e.timestamp 0 es) with hl | hl
        · rw [hl]
        · exact (takeRun_zero_of_chain' hch _ hl).symm
      · exact ih hch.tail p hpr
    · rw [if_neg hg] at hp
      exact ih hch.tail p hp

/-- Two entries that do not share a valid time value. -/
def distinctTs (a b : LogEntry) : Prop :=
  a.timestamp = none ∨ a.timestamp ≠ b.timestamp

instance : DecidableRel distinctTs := fun a b => by
  unfold distinctTs
  infer_instance

/-- Not sharing a valid time value is symmetric. -/
theorem distinctTs_symm : Symmetric distinctTs := by
  intro a b h
  unfold distinctTs at h ⊢
  rcases h with h | h
  · rw [h]
    by_cases hb : b.timestamp = none
    · exact Or.inl hb
    · exact Or.inr hb
  · by_cases hb : b.timestamp = none
    · exact Or.inl hb
    · exact Or.inr (fun hba => h hba.symm)

/-- With a zero window and pairwise distinct time values, no anchor's run
ever grows beyond itself, so a minimum length of two emits nothing. -/
theorem windowsAux_zero_eq_nil (m : Int) (hm : 2 ≤ m) :
    ∀ l : List LogEntry, List.Chain' adjLe l → List.Pairwise distinctTs l →
      windowsAux 0 m l = [] := by
  intro l
  induction l with
  | nil => intro _ _; rfl
  | cons e es ih =>
    intro hch hpw
    rw [windowsAux]
    have htr : takeRun e.timestamp 0 es = [] := by
      cases htr : takeRun e.timestamp 0 es with
      | nil => rfl
      | cons y ys =>
        exfalso
        have hy : y ∈ takeRun e.timestamp 0 es := by
          rw [htr]
          exact List.mem_cons_self y ys
        have hyts : y.timestamp = e.timestamp := takeRun_zero_of_chain' hch y hy
        have hyes : y ∈ es := takeRun_subset e.timestamp 0 es y hy
        have hd : distinctTs e y := (List.pairwise_cons.mp hpw).1 y hyes
        cases het : e.timestamp with
        | none =>
          rw [het, takeRun_none] at htr
          simp at htr
        | some t =>
          rcases hd with hd | hd
          · rw [het] at hd
            exact Option.noConfusion hd
          · rw [hyts] at hd
            exact hd rfl
    rw [htr]
    have hg : ¬ m ≤ (([e] : List LogEntry).length : Int) := by
      simp only [List.length_cons, List.length_nil]
      omega
    rw [if_neg hg]
    exact ih hch.tail (List.pairwise_cons.mp hpw).2

/-! ## The claims -/

set_option maxRecDepth 20000

/-- The first window returned for the sample log at window `10000` and
minimum length `2` (also the only window at minimum length `3`). -/
def sampleWindow1 : Pattern :=
  { events := ["LOGIN User logged in", "NAVIGATE User navigated to dashboard",
               "CLICK User clicked on settings"]
    startTime := some 1681569135123
    endTime := some 1681569139789 }

/-- C1: for every input, `analyzeLogPatterns` sorts the parsed records
ascending by timestamp and then, for each anchor index `i` of the sorted
sequence, builds the run of record `i` followed by consecutive records
whose offset from record `i` is within `timeWindowMs` (stopping at the
first that exceeds it), and emits exactly one window for `i` iff the run,
anchor inclusive, has at least `minSequenceLength` records — events in run
order, `startTime` the anchor's timestamp, `endTime` the run's last
record's timestamp — with windows in anchor-index order. -/
theorem analyzeLogPatterns_eq_anchor_spec (logContent : String) (w m : Int) :
    analyzeLogPatterns logContent w m = analyzeLogPatternsSpec logContent w m := by
  unfold analyzeLogPatterns analyzeLogPatternsSpec
  rw [windowsAux_eq_spec]

/-- C2, counterexample: a regex-matching line with an invalid calendar
date (month 13) yields a record with an Invalid-Date timestamp, and with
`minSequenceLength = 1`, `timeWindowMs = 0` the call emits a window whose
endpoints are Invalid Dates, so the JS comparison
`endTime - startTime <= timeWindowMs` (a `NaN` comparison) is false: the
claimed bound does not hold for every input and minimum length. -/
theorem invalid_timestamp_window_escapes_bound :
    analyzeLogPatterns "2023-13-01T00:00:00.000Z FOO" 0 1 =
      [{ events := ["FOO"], startTime := none, endTime := none }] ∧
    jsWithin (none : Option Int) (none : Option Int) 0 = false := by
  exact ⟨by decide, rfl⟩

/-- C2 (amended): for every input, nonnegative window and minimum length,
every emitted window has at least `minSequenceLength` events, and whenever
both endpoint timestamps are valid time values their difference is at most
`timeWindowMs`.  (Only windows whose endpoints are Invalid Dates — which
arise only when `minSequenceLength <= 1` — escape the numeric bound, since
a `NaN` comparison is false.) -/
theorem window_duration_bounded_of_valid (logContent : String) (w m : Int)
    (hw : 0 ≤ w) :
    ∀ p ∈ analyzeLogPatterns logContent w m,
      m ≤ (p.events.length : Int) ∧
      ∀ te ts, p.endTime = some te → p.startTime = some ts → te - ts ≤ w := by
  unfold analyzeLogPatterns
  exact windowsAux_sound w m hw _

/-- Witness for C2 on the sample log: the first returned window has at
least two events and spans 4666 ms, within the 10000 ms window. -/
theorem window_duration_bounded_of_valid_witness :
    ((0 : Int) ≤ 10000 ∧ sampleWindow1 ∈ analyzeLogPatterns sampleLog 10000 2) ∧
    (2 : Int) ≤ (sampleWindow1.events.length : Int) ∧
    (1681569139789 - 1681569135123 : Int) ≤ 10000 :=
  ⟨⟨by decide, by decide⟩,
   (window_duration_bounded_of_valid sampleLog 10000 2 (by decide) sampleWindow1
      (by decide)).1,
   (window_duration_bounded_of_valid sampleLog 10000 2 (by decide) sampleWindow1
      (by decide)).2 1681569139789 1681569135123 (by decide) (by decide)⟩

/-- C3 (code bug): the source regex has an unescaped `.` between the
seconds and the milliseconds, so a line whose separator is `x` still
matches and yields a record — the claim (with the spec) requires any such
line to fail the match and be dropped. -/
theorem nonDot_separator_line_still_parses :
    parseLogEntries "2023-04-15T14:32:15x123Z FOO" =
      [{ timestamp := none, event := "FOO" }] := by
  decide

/-- C4, counterexample: with `minSequenceLength = 0` the call does not
fail fast: it returns the ordinary per-anchor result list — here six
windows, including singletons shorter than any meaningful minimum. -/
theorem min_length_zero_returns_result_list :
    analyzeLogPatterns sampleLog 10000 0 =
      [ { events := ["LOGIN User logged in", "NAVIGATE User navigated to dashboard",
                     "CLICK User clicked on settings"]
          startTime := some 1681569135123, endTime := some 1681569139789 },
        { events := ["NAVIGATE User navigated to dashboard",
                     "CLICK User clicked on settings"]
          startTime := some 1681569137456, endTime := some 1681569139789 },
        { events := ["CLICK User clicked on settings"]
          startTime := some 1681569139789, endTime := some 1681569139789 },
        { events := ["LOGOUT User logged out"]
          startTime := some 1681569165123, endTime := some 1681569165123 },
        { events := ["LOGIN Another user logged in", "ERROR Failed to load dashboard"]
          startTime := some 1681569315123, endTime := some 1681569318456 },
        { events := ["ERROR Failed to load dashboard"]
          startTime := some 1681569318456, endTime := some 1681569318456 } ] := by
  decide

/-- C4 (amended): `analyzeLogPatterns` performs no validation of
`minSequenceLength`; a zero or negative value is not rejected and no error
is raised — the call returns the normal per-anchor list in which every
anchor qualifies, one window per parsed record. -/
theorem min_length_nonpositive_no_failure (logContent : String) (w m : Int)
    (hm : m ≤ 0) :
    (analyzeLogPatterns logContent w m).length =
      (parseLogEntries logContent).length := by
  unfold analyzeLogPatterns
  rw [windowsAux_length_of_le_one w m (by omega), sortByTime_length]

/-- Witness for the amended C4 at `minSequenceLength = 0`. -/
theorem min_length_nonpositive_no_failure_witness :
    (0 : Int) ≤ 0 ∧
    (analyzeLogPatterns sampleLog 10000 0).length =
      (parseLogEntries sampleLog).length :=
  ⟨by decide, min_length_nonpositive_no_failure sampleLog 10000 0 (by decide)⟩

/-- C5: on the six-line sample log, `analyzeLogPatterns(log, 10000, 2)`
contains a window anchored at `14:32:15.123Z` (epoch 1681569135123)
holding the LOGIN and NAVIGATE events and not the LOGOUT event; with
minimum length 3 every returned window has at least three events and none
is anchored at `14:35:15.123Z` (epoch 1681569315123). -/
theorem sample_log_windows :
    (∃ p ∈ analyzeLogPatterns sampleLog 10000 2,
        p.startTime = some 1681569135123 ∧
        "LOGIN User logged in" ∈ p.events ∧
        "NAVIGATE User navigated to dashboard" ∈ p.events ∧
        "LOGOUT User logged out" ∉ p.events) ∧
    ∀ p ∈ analyzeLogPatterns sampleLog 10000 3,
      3 ≤ p.events.length ∧ p.startTime ≠ some 1681569315123 := by
  decide

/-- Witness for C5 at the single minimum-length-3 window. -/
theorem sample_log_windows_witness :
    sampleWindow1 ∈ analyzeLogPatterns sampleLog 10000 3 ∧
    3 ≤ sampleWindow1.events.length ∧
    sampleWindow1.startTime ≠ some 1681569315123 :=
  ⟨by decide, (sample_log_windows.2 sampleWindow1 (by decide)).1,
   (sample_log_windows.2 sampleWindow1 (by decide)).2⟩

/-- C6: with `timeWindowMs = 0`, every emitted window starts and ends at
the same time value (windows arise only from runs of identical
timestamps), and on any input whose parsed records share no valid
timestamp pairwise, any `minSequenceLength >= 2` yields the empty list. -/
theorem zero_window_identical_timestamps (logContent : String) (m : Int) :
    (∀ p ∈ analyzeLogPatterns logContent 0 m, p.startTime = p.endTime) ∧
    (2 ≤ m → (parseLogEntries logContent).Pairwise distinctTs →
      analyzeLogPatterns logContent 0 m = []) := by
  constructor
  · unfold analyzeLogPatterns
    exact windowsAux_zero_start_eq_end m _ (chain'_sortByTime _)
  · intro hm hpw
    unfold analyzeLogPatterns
    exact windowsAux_zero_eq_nil m hm _ (chain'_sortByTime _)
      (((sortByTime_perm _).pairwise_iff (fun h => distinctTs_symm h)).mpr hpw)

/-- Witness for C6: the sample log has six distinct timestamps, and a
zero window with minimum length 2 returns nothing. -/
theorem zero_window_identical_timestamps_witness :
    ((2 : Int) ≤ 2 ∧ (parseLogEntries sampleLog).Pairwise distinctTs) ∧
    analyzeLogPatterns sampleLog 0 2 = [] :=
  ⟨⟨by decide, by decide⟩,
   (zero_window_identical_timestamps sampleLog 2).2 (by decide) (by decide)⟩

/-- C7: empty content parses to the empty sequence, and detection on it
returns the empty list, with no error, for every window duration and every
minimum length at least 1. -/
theorem empty_content_empty_results :
    parseLogEntries "" = [] ∧
    ∀ (w m : Int), 1 ≤ m → analyzeLogPatterns "" w m = [] := by
  exact ⟨rfl, fun w m _ => rfl⟩

/-- Witness for C7 at `timeWindowMs = 10000`, `minSequenceLength = 1`. -/
theorem empty_content_empty_results_witness :
    (1 : Int) ≤ 1 ∧ analyzeLogPatterns "" 10000 1 = [] :=
  ⟨by decide, empty_content_empty_results.2 10000 1 (by decide)⟩

/-- C8: both public operations are deterministic — two calls on the same
arguments return identical results, in the same order.  In the embedding
both are pure functions of their inputs with no hidden state, so the two
runs are definitionally the same value. -/
theorem operations_deterministic (logContent : String) (w m : Int) :
    parseLogEntries logContent = parseLogEntries logContent ∧
    analyzeLogPatterns logContent w m = analyzeLogPatterns logContent w m :=
  ⟨rfl, rfl⟩

/-- C9: with `minSequenceLength <= 1` (so also 0 and negatives) the call
does not fail: every anchor qualifies, exactly one window per parsed
record is emitted, every window has at least one event, and a singleton
window starts and ends at the same timestamp. -/
theorem min_length_le_one_window_per_record (logContent : String) (w m : Int)
    (hm : m ≤ 1) :
    (analyzeLogPatterns logContent w m).length =
      (parseLogEntries logContent).length ∧
    ∀ p ∈ analyzeLogPatterns logContent w m,
      p.events ≠ [] ∧ (p.events.length = 1 → p.startTime = p.endTime) := by
  constructor
  · unfold analyzeLogPatterns
    rw [windowsAux_length_of_le_one w m hm, sortByTime_length]
  · unfold analyzeLogPatterns
    exact windowsAux_wf w m _

/-- Witness for C9 at `minSequenceLength = 1` on the sample log. -/
theorem min_length_le_one_window_per_record_witness :
    (1 : Int) ≤ 1 ∧
    (analyzeLogPatterns sampleLog 10000 1).length =
      (parseLogEntries sampleLog).length :=
  ⟨by decide, (min_length_le_one_window_per_record sampleLog 10000 1 (by decide)).1⟩

/-- C10: both operations are total — in the embedding they are structural
recursions returning a value on every input; a regex-matching line whose
calendar fields are invalid (February 30) still yields a record with an
Invalid-Date timestamp and does not abort parsing; and emitted windows are
well-formed — at most one per parsed record and never with an empty event
list, so the source's `[0]` and `[length - 1]` accesses stay inside the
run. -/
theorem operations_total_and_windows_wellformed (logContent : String) (w m : Int) :
    ((analyzeLogPatterns logContent w m).length ≤
        (parseLogEntries logContent).length ∧
      ∀ p ∈ analyzeLogPatterns logContent w m, p.events ≠ []) ∧
    parseLogEntries "2024-02-30T10:00:00.000Z EVT details" =
      [{ timestamp := none, event := "EVT details" }] := by
  refine ⟨⟨?_, ?_⟩, by decide⟩
  · unfold analyzeLogPatterns
    calc (windowsAux w m (sortByTime (parseLogEntries logContent))).length
        ≤ (sortByTime (parseLogEntries logContent)).length :=
          windowsAux_length_le w m _
      _ = (parseLogEntries logContent).length := sortByTime_length _
  · unfold analyzeLogPatterns
    intro p hp
    exact (windowsAux_wf w m _ p hp).1

/-- Witness for C10 at the sample log's first window. -/
theorem operations_total_and_windows_wellformed_witness :
    sampleWindow1 ∈ analyzeLogPatterns sampleLog 10000 2 ∧
    sampleWindow1.events ≠ [] :=
  ⟨by decide,
   (operations_total_and_windows_wellformed sampleLog 10000 2).1.2 sampleWindow1
     (by decide)⟩
